import Mathlib

/-!
A shallow embedding of parts of the `linera-protocol` repository:
the LRU value cache (`linera-core/src/value_cache.rs`) and the DynamoDB
store adapter (`linera-views/src/backends/dynamo_db.rs`), together with
proofs settling the specification claims about them.
-/

namespace LineraSpec

/-!
## LRU cache model

Modelled from the spec: `ValueCache` in `value_cache.rs` delegates to the
external `lru` crate's `LruCache`, whose code is not part of this
repository.  The spec (section 4.4) describes standard bounded LRU
semantics: entries are kept in recency order, `get` and `promote` move an
entry to the most-recent position, `push` inserts at the most-recent
position and, when the cache is full, evicts the least-recently-used
entry.  We represent the cache as a list of key-value pairs, most
recently used first; the least-recently-used entry is the last one.
-/

structure LruCache (K V : Type) where
  capacity : Nat
  entries : List (K × V)
deriving DecidableEq

namespace LruCache

variable {K V : Type} [DecidableEq K]

/-- `LruCache::contains` — membership test, no reordering (spec: "no promotion"). -/
def contains (c : LruCache K V) (k : K) : Bool :=
  c.entries.any fun e => decide (e.1 = k)

/-- The value currently associated with a key: first match in recency order. -/
def lookup (c : LruCache K V) (k : K) : Option V :=
  (c.entries.find? fun e => decide (e.1 = k)).map Prod.snd

/-- `LruCache::promote` — move the entry for `k` (if any) to the
most-recent position without changing its value. -/
def promote (c : LruCache K V) (k : K) : LruCache K V :=
  match c.entries.find? (fun e => decide (e.1 = k)) with
  | none => c
  | some e => { c with entries := e :: c.entries.eraseP (fun e => decide (e.1 = k)) }

/-- `LruCache::push` — insert at the most-recent position; if the key is
already present its entry is replaced; otherwise, when the cache is full,
the least-recently-used entry (the last one) is evicted. -/
def push (c : LruCache K V) (k : K) (v : V) : LruCache K V :=
  if c.contains k then
    { c with entries := (k, v) :: c.entries.eraseP (fun e => decide (e.1 = k)) }
  else if c.capacity ≤ c.entries.length then
    { c with entries := (k, v) :: c.entries.dropLast }
  else
    { c with entries := (k, v) :: c.entries }

/-- `LruCache::pop` — remove the entry for `k`, returning its value. -/
def pop (c : LruCache K V) (k : K) : Option V × LruCache K V :=
  (c.lookup k, { c with entries := c.entries.eraseP (fun e => decide (e.1 = k)) })

/-- `LruCache::get` — return (a clone of) the value for `k`, promoting it. -/
def getValue (c : LruCache K V) (k : K) : Option V × LruCache K V :=
  (c.lookup k, c.promote k)

end LruCache

/-!
## `ValueCache` operations (translated from `value_cache.rs`)

The `Mutex` around the inner `LruCache` makes each call atomic; in this
sequential model each operation is a function from cache state to result
and next state.  The `with_metrics` conditional-compilation flag is a
boolean parameter on the operations that read it.
-/

/-- The state of a `ValueCache` together with its two metrics counters
(`value_cache_hit` and `value_cache_miss`). -/
structure ValueCacheState (K V : Type) where
  cache : LruCache K V
  hits : Nat
  misses : Nat
deriving DecidableEq

namespace ValueCache

variable {K V : Type} [DecidableEq K]

/-- `ValueCache::insert_owned` (value_cache.rs, lines 115-126): if the key
is present, promote it and return `false`; otherwise push the new entry
and return `true`. -/
def insert_owned (c : LruCache K V) (k : K) (v : V) : Bool × LruCache K V :=
  if c.contains k then
    (false, c.promote k)
  else
    (true, c.push k v)

/-- `ValueCache::keys` (value_cache.rs, lines 73-83): the cached keys. -/
def keysList (c : LruCache K V) : List K :=
  c.entries.map Prod.fst

/-- `ValueCache::contains` (value_cache.rs, lines 87-89), paired with the
(unchanged) cache state so that the absence of mutation is explicit. -/
def containsOp (c : LruCache K V) (k : K) : Bool × LruCache K V :=
  (c.contains k, c)

/-- `ValueCache::track_cache_usage` (value_cache.rs, lines 141-155): when
metrics are enabled, increment the hit counter if a value was produced
and the miss counter otherwise; the value passes through unchanged. -/
def track_cache_usage (withMetrics : Bool) (hits misses : Nat)
    (maybeValue : Option V) : Option V × Nat × Nat :=
  ( maybeValue
  , if withMetrics && maybeValue.isSome then hits + 1 else hits
  , if withMetrics && maybeValue.isNone then misses + 1 else misses )

/-- `ValueCache::get` (value_cache.rs, lines 134-139): look up and promote
via `LruCache::get`, then pass the result through `track_cache_usage`. -/
def getTracked (withMetrics : Bool) (s : ValueCacheState K V) (k : K) :
    Option V × ValueCacheState K V :=
  let r := s.cache.getValue k
  let t := track_cache_usage withMetrics s.hits s.misses r.1
  (t.1, { cache := r.2, hits := t.2.1, misses := t.2.2 })

/-- `ValueCache::remove` (value_cache.rs, lines 128-131): remove via
`LruCache::pop`, then pass the result through `track_cache_usage`. -/
def removeTracked (withMetrics : Bool) (s : ValueCacheState K V) (k : K) :
    Option V × ValueCacheState K V :=
  let r := s.cache.pop k
  let t := track_cache_usage withMetrics s.hits s.misses r.1
  (t.1, { cache := r.2, hits := t.2.1, misses := t.2.2 })

/-- The found-keys pass of `ValueCache::try_get_many`: for each key, read
the value via `cache.get` (which promotes it) and pair it with the key.
The `none` branch corresponds to the `expect` in the source, which is
unreachable because the pass only runs on keys the cache contains. -/
def getManyPairs (c : LruCache K V) : List K → List (K × V) × LruCache K V
  | [] => ([], c)
  | k :: ks =>
    match c.lookup k with
    | some v =>
      let r := getManyPairs (c.promote k) ks
      ((k, v) :: r.1, r.2)
    | none => getManyPairs c ks

/-- `ValueCache::try_get_many` (value_cache.rs, lines 161-185): partition
the requested keys by cache membership, then read every found key's value
out of the cache. -/
def try_get_many (c : LruCache K V) (keys : List K) :
    (List (K × V) × List K) × LruCache K V :=
  let foundKeys := keys.filter fun k => c.contains k
  let notFound := keys.filter fun k => !(c.contains k)
  let r := getManyPairs c foundKeys
  ((r.1, notFound), r.2)

end ValueCache

/-! ## Supporting lemmas about the LRU structure -/

theorem find?_eraseP_ne {α : Type} (p q : α → Bool) (l : List α)
    (h : ∀ a, q a = true → p a = false) :
    (l.eraseP q).find? p = l.find? p := by
  induction l with
  | nil => rfl
  | cons x xs ih =>
    by_cases hq : q x = true
    · rw [List.eraseP_cons_of_pos hq, List.find?_cons_of_neg]
      intro hp
      rw [h x hq] at hp
      exact Bool.false_ne_true hp
    · rw [List.eraseP_cons_of_neg hq]
      by_cases hp : p x = true
      · rw [List.find?_cons_of_pos _ hp, List.find?_cons_of_pos _ hp]
      · rw [List.find?_cons_of_neg _ hp, List.find?_cons_of_neg _ hp, ih]

theorem perm_cons_eraseP {α : Type} (p : α → Bool) (l : List α) (e : α)
    (h : l.find? p = some e) : (e :: l.eraseP p).Perm l := by
  induction l with
  | nil => simp at h
  | cons x xs ih =>
    by_cases hp : p x = true
    · rw [List.find?_cons_of_pos _ hp] at h
      injection h with h
      subst h
      rw [List.eraseP_cons_of_pos hp]
    · rw [List.find?_cons_of_neg _ hp] at h
      rw [List.eraseP_cons_of_neg hp]
      exact (List.Perm.swap x e _).trans ((ih h).cons x)

theorem find?_cons_pos {α : Type} (p : α → Bool) (a : α) (l : List α)
    (h : p a = true) : (a :: l).find? p = some a := by
  simp [List.find?_cons, h]

theorem find?_cons_neg {α : Type} (p : α → Bool) (a : α) (l : List α)
    (h : p a = false) : (a :: l).find? p = l.find? p := by
  simp [List.find?_cons, h]

theorem eraseP_cons_pos {α : Type} (p : α → Bool) (a : α) (l : List α)
    (h : p a = true) : (a :: l).eraseP p = l := by
  simp [List.eraseP_cons, h]

theorem eraseP_cons_neg {α : Type} (p : α → Bool) (a : α) (l : List α)
    (h : p a = false) : (a :: l).eraseP p = a :: l.eraseP p := by
  simp [List.eraseP_cons, h]

theorem length_eraseP_find? {α : Type} (p : α → Bool) (l : List α) (e : α)
    (h : l.find? p = some e) : (l.eraseP p).length + 1 = l.length := by
  induction l with
  | nil => simp at h
  | cons x xs ih =>
    cases hx : p x with
    | true =>
      rw [eraseP_cons_pos p x xs hx]
      simp
    | false =>
      rw [find?_cons_neg p x xs hx] at h
      rw [eraseP_cons_neg p x xs hx]
      simp only [List.length_cons]
      have := ih h
      omega

namespace LruCache

variable {K V : Type} [DecidableEq K]

theorem lookup_promote (c : LruCache K V) (k k' : K) :
    (c.promote k').lookup k = c.lookup k := by
  unfold promote
  split
  · rfl
  · next e hfind =>
    have hp := List.find?_some hfind
    have he : e.1 = k' := by simpa using hp
    by_cases hk : k = k'
    · subst hk
      unfold lookup
      rw [find?_cons_pos (fun a : K × V => decide (a.1 = k)) e _ (by simp [he]), hfind]
    · have hne : (fun a : K × V => decide (a.1 = k)) e = false := by
        simp only [he, decide_eq_false_iff_not]
        exact fun h => hk h.symm
      have hcond : ∀ a : K × V, decide (a.1 = k') = true → decide (a.1 = k) = false := by
        intro a ha
        have ha' : a.1 = k' := by simpa using ha
        simp only [ha', decide_eq_false_iff_not]
        exact fun h => hk h.symm
      unfold lookup
      rw [find?_cons_neg (fun a : K × V => decide (a.1 = k)) e _ hne,
        find?_eraseP_ne (fun a : K × V => decide (a.1 = k))
          (fun a : K × V => decide (a.1 = k')) c.entries hcond]

theorem contains_eq_lookup_isSome (c : LruCache K V) (k : K) :
    c.contains k = (c.lookup k).isSome := by
  unfold contains lookup
  induction c.entries with
  | nil => rfl
  | cons x xs ih =>
    simp only [List.any_cons]
    cases hx : decide (x.1 = k) with
    | true =>
      rw [find?_cons_pos (fun a : K × V => decide (a.1 = k)) x xs hx]
      simp
    | false =>
      rw [find?_cons_neg (fun a : K × V => decide (a.1 = k)) x xs hx, ih]
      simp

theorem contains_promote (c : LruCache K V) (k k' : K) :
    (c.promote k').contains k = c.contains k := by
  rw [contains_eq_lookup_isSome, contains_eq_lookup_isSome, lookup_promote]

theorem length_promote (c : LruCache K V) (k : K) :
    (c.promote k).entries.length = c.entries.length := by
  unfold promote
  split
  · rfl
  · next e hfind =>
    have h := length_eraseP_find? (fun a : K × V => decide (a.1 = k)) c.entries e hfind
    simp only [List.length_cons]
    omega

theorem perm_promote (c : LruCache K V) (k : K) :
    (c.promote k).entries.Perm c.entries := by
  unfold promote
  split
  · exact List.Perm.refl _
  · next e hfind => exact perm_cons_eraseP _ _ _ hfind

end LruCache

/-- `ValueCache::insert` (value_cache.rs, lines 195-207 and 236-248): the
key is derived from the value itself (`Hashed::hash` or `Blob::id`),
modelled by an arbitrary key-extraction function `keyOf`. -/
def ValueCache.insert {K V : Type} [DecidableEq K] (keyOf : V → K)
    (c : LruCache K V) (v : V) : Bool × LruCache K V :=
  if c.contains (keyOf v) then
    (false, c.promote (keyOf v))
  else
    (true, c.push (keyOf v) v)

theorem getManyPairs_spec {K V : Type} [DecidableEq K] (ks : List K) :
    ∀ c : LruCache K V, (∀ k ∈ ks, c.contains k = true) →
      (ValueCache.getManyPairs c ks).1.map Prod.fst = ks
      ∧ ∀ p ∈ (ValueCache.getManyPairs c ks).1, c.lookup p.1 = some p.2 := by
  induction ks with
  | nil =>
    intro c _
    exact ⟨rfl, by intro p hp; simp [ValueCache.getManyPairs] at hp⟩
  | cons k ks ih =>
    intro c h
    have hk : c.contains k = true := h k (List.mem_cons_self k ks)
    have hks : ∀ k' ∈ ks, (c.promote k).contains k' = true := by
      intro k' hk'
      rw [LruCache.contains_promote]
      exact h k' (List.mem_cons_of_mem _ hk')
    have hsome : (c.lookup k).isSome := by
      rw [← LruCache.contains_eq_lookup_isSome]
      exact hk
    obtain ⟨v, hv⟩ := Option.isSome_iff_exists.mp hsome
    have ih' := ih (c.promote k) hks
    constructor
    · simp only [ValueCache.getManyPairs, hv]
      simp [ih'.1]
    · intro p hp
      simp only [ValueCache.getManyPairs, hv] at hp
      rcases List.mem_cons.mp hp with h1 | h2
      · subst h1
        exact hv
      · have := ih'.2 p h2
        rwa [LruCache.lookup_promote] at this

/-- The capacity-2 scenario of the spec: insert(a,1), insert(b,2), get(a),
insert(c,3), with a = 10, b = 20, c = 30, starting from an empty cache. -/
def lruScenarioFinal : LruCache Nat Nat :=
  let s0 : LruCache Nat Nat := ⟨2, []⟩
  let s1 := (ValueCache.insert_owned s0 10 1).2
  let s2 := (ValueCache.insert_owned s1 20 2).2
  let s3 := (ValueCache.getTracked false ⟨s2, 0, 0⟩ 10).2.cache
  (ValueCache.insert_owned s3 30 3).2

/-! ## Claim theorems for the LRU value cache -/

/-- Claim C1: the cache never holds more entries than its capacity; an
insertion of a fresh key into a full cache evicts exactly the
least-recently-used entry (the last in recency order); and in the
capacity-2 scenario insert(a,1), insert(b,2), get(a), insert(c,3), entry
b is evicted while a and c remain (the get protected a). -/
theorem claim_C1_capacity_and_lru_eviction {K V : Type} [DecidableEq K]
    (c : LruCache K V) (k : K) (v : V)
    (hcap : 1 ≤ c.capacity) (hlen : c.entries.length ≤ c.capacity) :
    (ValueCache.insert_owned c k v).2.entries.length ≤ c.capacity
    ∧ (c.contains k = false → c.entries.length = c.capacity →
        (ValueCache.insert_owned c k v).2.entries = (k, v) :: c.entries.dropLast)
    ∧ (lruScenarioFinal.contains 10 = true
        ∧ lruScenarioFinal.contains 20 = false
        ∧ lruScenarioFinal.contains 30 = true) := by
  refine ⟨?_, ?_, by decide⟩
  · by_cases hc : c.contains k = true
    · simp only [ValueCache.insert_owned, hc, if_true]
      rw [LruCache.length_promote]
      exact hlen
    · have hc' : c.contains k = false := by simpa using hc
      by_cases hfull : c.capacity ≤ c.entries.length
      · simp only [ValueCache.insert_owned, LruCache.push, hc', Bool.false_eq_true, if_false,
          hfull, if_true, List.length_cons, List.length_dropLast]
        omega
      · simp only [ValueCache.insert_owned, LruCache.push, hc', Bool.false_eq_true, if_false,
          hfull, List.length_cons]
        omega
  · intro hfresh hfull
    have hge : c.capacity ≤ c.entries.length := le_of_eq hfull.symm
    simp only [ValueCache.insert_owned, LruCache.push, hfresh, Bool.false_eq_true, if_false,
      hge, if_true]

/-- Witness for C1 at a concrete full cache and fresh key. -/
theorem claim_C1_witness :
    (ValueCache.insert_owned (⟨2, [(1, 5), (2, 6)]⟩ : LruCache Nat Nat) 3 7).2.entries.length
      ≤ (⟨2, [(1, 5), (2, 6)]⟩ : LruCache Nat Nat).capacity
    ∧ (ValueCache.insert_owned (⟨2, [(1, 5), (2, 6)]⟩ : LruCache Nat Nat) 3 7).2.entries
      = (3, 7) :: (⟨2, [(1, 5), (2, 6)]⟩ : LruCache Nat Nat).entries.dropLast := by
  have h := claim_C1_capacity_and_lru_eviction
    (⟨2, [(1, 5), (2, 6)]⟩ : LruCache Nat Nat) 3 7 (by decide) (by decide)
  exact ⟨h.1, h.2.1 (by decide) (by decide)⟩

/-- Claim C2: `insert_owned` (and the key-deriving `insert`) returns true
iff the key was absent; on an already-present key it returns false and
only promotes: the entry multiset, the entry count and the value stored
under the key are unchanged. -/
theorem claim_C2_insert_absence_iff_and_promotion {K V : Type} [DecidableEq K]
    (c : LruCache K V) (k : K) (v w : V) (keyOf : V → K) :
    ((ValueCache.insert_owned c k v).1 = !(c.contains k))
    ∧ ((ValueCache.insert keyOf c w).1 = !(c.contains (keyOf w)))
    ∧ (c.contains k = true →
        (ValueCache.insert_owned c k v).2.entries.Perm c.entries
        ∧ (ValueCache.insert_owned c k v).2.entries.length = c.entries.length
        ∧ (ValueCache.insert_owned c k v).2.lookup k = c.lookup k)
    ∧ (c.contains (keyOf w) = true →
        (ValueCache.insert keyOf c w).2.entries.Perm c.entries
        ∧ (ValueCache.insert keyOf c w).2.entries.length = c.entries.length
        ∧ (ValueCache.insert keyOf c w).2.lookup (keyOf w) = c.lookup (keyOf w)) := by
  refine ⟨?_, ?_, ?_, ?_⟩
  · by_cases hc : c.contains k = true
    · simp [ValueCache.insert_owned, hc]
    · have hc' : c.contains k = false := by simpa using hc
      simp [ValueCache.insert_owned, hc']
  · by_cases hc : c.contains (keyOf w) = true
    · simp [ValueCache.insert, hc]
    · have hc' : c.contains (keyOf w) = false := by simpa using hc
      simp [ValueCache.insert, hc']
  · intro hc
    simp only [ValueCache.insert_owned, hc, if_true]
    exact ⟨LruCache.perm_promote c k, LruCache.length_promote c k,
      LruCache.lookup_promote c k k⟩
  · intro hc
    simp only [ValueCache.insert, hc, if_true]
    exact ⟨LruCache.perm_promote c (keyOf w), LruCache.length_promote c (keyOf w),
      LruCache.lookup_promote c (keyOf w) (keyOf w)⟩

/-- Witness for C2 at a concrete cache containing the inserted key. -/
theorem claim_C2_witness :
    (ValueCache.insert_owned (⟨2, [(1, 5), (2, 6)]⟩ : LruCache Nat Nat) 1 9).1 = false
    ∧ (ValueCache.insert_owned (⟨2, [(1, 5), (2, 6)]⟩ : LruCache Nat Nat) 1 9).2.entries.Perm
        [(1, 5), (2, 6)]
    ∧ (ValueCache.insert_owned (⟨2, [(1, 5), (2, 6)]⟩ : LruCache Nat Nat) 1 9).2.entries.length
        = 2
    ∧ (ValueCache.insert_owned (⟨2, [(1, 5), (2, 6)]⟩ : LruCache Nat Nat) 1 9).2.lookup 1
        = some 5 := by
  have h := claim_C2_insert_absence_iff_and_promotion
    (⟨2, [(1, 5), (2, 6)]⟩ : LruCache Nat Nat) 1 9 9 (fun _ => 1)
  have hp := h.2.2.1 (by decide)
  refine ⟨?_, hp.1, hp.2.1, ?_⟩
  · rw [h.1]
    decide
  · rw [hp.2.2]
    decide

/-- Claim C3: `try_get_many` partitions the requested keys: the found
pairs' keys together with the not-found keys are a permutation of the
input, the two parts are disjoint, and every found key was present in the
cache before the call, paired with its cached value. -/
theorem claim_C3_try_get_many_partition {K V : Type} [DecidableEq K] [DecidableEq V]
    (c : LruCache K V) (keys : List K) :
    ((ValueCache.try_get_many c keys).1.1.map Prod.fst
        ++ (ValueCache.try_get_many c keys).1.2).Perm keys
    ∧ ((ValueCache.try_get_many c keys).1.1.map Prod.fst).all
        (fun k => !(decide (k ∈ (ValueCache.try_get_many c keys).1.2))) = true
    ∧ (ValueCache.try_get_many c keys).1.1.all
        (fun p => c.contains p.1 && decide (c.lookup p.1 = some p.2)) = true := by
  have hfk : ∀ k ∈ keys.filter (fun k => c.contains k), c.contains k = true := by
    intro k hk
    exact List.of_mem_filter hk
  have hspec := getManyPairs_spec (keys.filter fun k => c.contains k) c hfk
  refine ⟨?_, ?_, ?_⟩
  · simp only [ValueCache.try_get_many]
    rw [hspec.1]
    exact List.filter_append_perm _ _
  · simp only [ValueCache.try_get_many, List.all_eq_true]
    intro k hk
    rw [hspec.1] at hk
    have hc : c.contains k = true := List.of_mem_filter hk
    simp only [Bool.not_eq_true', decide_eq_false_iff_not]
    intro hmem
    have hnc := List.of_mem_filter hmem
    simp [hc] at hnc
  · simp only [ValueCache.try_get_many, List.all_eq_true]
    intro p hp
    have h1 := hspec.2 p hp
    have h2 : c.contains p.1 = true := by
      rw [LruCache.contains_eq_lookup_isSome, h1]
      rfl
    simp [h1, h2]

/-- Claim C7: metrics are a pure side channel: `get` and `remove` return
the same value and leave the same cache state whether the metrics flag is
enabled or not, and with metrics disabled the counters never move. -/
theorem claim_C7_metrics_pure_side_channel {K V : Type} [DecidableEq K]
    (s : ValueCacheState K V) (k : K) :
    (ValueCache.getTracked true s k).1 = (ValueCache.getTracked false s k).1
    ∧ (ValueCache.getTracked true s k).2.cache = (ValueCache.getTracked false s k).2.cache
    ∧ (ValueCache.removeTracked true s k).1 = (ValueCache.removeTracked false s k).1
    ∧ (ValueCache.removeTracked true s k).2.cache = (ValueCache.removeTracked false s k).2.cache
    ∧ (ValueCache.getTracked false s k).2.hits = s.hits
    ∧ (ValueCache.getTracked false s k).2.misses = s.misses
    ∧ (ValueCache.removeTracked false s k).2.hits = s.hits
    ∧ (ValueCache.removeTracked false s k).2.misses = s.misses := by
  refine ⟨rfl, rfl, rfl, rfl, ?_, ?_, ?_, ?_⟩ <;>
    simp [ValueCache.getTracked, ValueCache.removeTracked, ValueCache.track_cache_usage]

/-- Claim C8: `contains` reports exactly whether the key is among the
cached keys and performs no promotion: the cache state is untouched. -/
theorem claim_C8_contains_no_promotion {K V : Type} [DecidableEq K]
    (c : LruCache K V) (k : K) :
    ((ValueCache.containsOp c k).1 = true ↔ k ∈ ValueCache.keysList c)
    ∧ (ValueCache.containsOp c k).2 = c := by
  refine ⟨?_, rfl⟩
  simp only [ValueCache.containsOp, LruCache.contains, ValueCache.keysList,
    List.any_eq_true, List.mem_map, decide_eq_true_eq]

/-!
## DynamoDB store adapter (translated from `dynamo_db.rs`)

Keys and values are byte sequences, modelled as `List Nat`.  The DynamoDB
table is modelled as an association list from (partition attribute,
key attribute) to value attribute.  Backend I/O is modelled by recording
the list of `transact_write_items` requests a call issues, in order.
-/

/-- `MAX_KEY_SIZE` (dynamo_db.rs, line 134). -/
def MAX_KEY_SIZE : Nat := 1024

/-- `RAW_MAX_VALUE_SIZE` (dynamo_db.rs, line 110). -/
def RAW_MAX_VALUE_SIZE : Nat := 409600

/-- Modelled from the spec: `get_uleb128_size` lives in
`linera-views/src/common.rs`, which is not among the provided source
files.  It returns the byte length of the ULEB128 encoding of `n` (the
comment and unit test in `dynamo_db.rs` pin `get_uleb128_size (400*1024) = 3`
and `get_uleb128_size 1024 = 2`).  The fuel argument makes the recursion
structural; `n` itself is always enough fuel. -/
def ulebAux : Nat → Nat → Nat
  | 0, _ => 1
  | fuel + 1, n => if n < 128 then 1 else 1 + ulebAux fuel (n / 128)

/-- Byte length of the ULEB128 encoding of `n`. -/
def get_uleb128_size (n : Nat) : Nat := ulebAux n n

/-- `VISIBLE_MAX_VALUE_SIZE` (dynamo_db.rs, lines 125-130). -/
def VISIBLE_MAX_VALUE_SIZE : Nat :=
  RAW_MAX_VALUE_SIZE - MAX_KEY_SIZE - get_uleb128_size RAW_MAX_VALUE_SIZE
    - get_uleb128_size MAX_KEY_SIZE - 1 - 1

/-- `DirectWritableKeyValueStore::MAX_VALUE_SIZE` for the DynamoDB store
(dynamo_db.rs, line 808). -/
def MAX_VALUE_SIZE_declared : Nat := VISIBLE_MAX_VALUE_SIZE

/-- `PARTITION_KEY_ROOT_KEY` (dynamo_db.rs, line 88). -/
def PARTITION_KEY_ROOT_KEY : List Nat := [1]

/-- `EMPTY_ROOT_KEY` (dynamo_db.rs, line 94). -/
def EMPTY_ROOT_KEY : List Nat := [0]

/-- The variants of `DynamoDbStoreInternalError` exercised by the claims
(dynamo_db.rs, lines 861-942). -/
inductive DynError where
  | ZeroLengthKey
  | KeyTooLong
  | ValueLengthTooLarge
deriving DecidableEq

/-- `check_key_size` (dynamo_db.rs, lines 195-202). -/
def check_key_size (key : List Nat) : Except DynError Unit :=
  if key.isEmpty then .error .ZeroLengthKey
  else if MAX_KEY_SIZE < key.length then .error .KeyTooLong
  else .ok ()

/-- The validation error `check_key_size` produces for a bad key. -/
def keySizeErr (key : List Nat) : DynError :=
  if key.isEmpty then .ZeroLengthKey else .KeyTooLong

/-- A `TransactWriteItem`: a `Put` or `Delete` request against one
(partition, key) pair. -/
inductive WriteItem where
  | put (partition key value : List Nat)
  | delete (partition key : List Nat)
deriving DecidableEq

/-- The partition attribute an item is addressed to. -/
def WriteItem.partitionOf : WriteItem → List Nat
  | .put p _ _ => p
  | .delete p _ => p

/-- `DynamoDbStoreInternal::build_delete_transaction` (dynamo_db.rs,
lines 558-569). -/
def build_delete_transaction (start_key key : List Nat) :
    Except DynError WriteItem :=
  match check_key_size key with
  | .error e => .error e
  | .ok _ => .ok (.delete start_key key)

/-- `DynamoDbStoreInternal::build_put_transaction` (dynamo_db.rs,
lines 571-587). -/
def build_put_transaction (start_key key value : List Nat) :
    Except DynError WriteItem :=
  match check_key_size key with
  | .error e => .error e
  | .ok _ =>
    if value.length ≤ RAW_MAX_VALUE_SIZE then .ok (.put start_key key value)
    else .error .ValueLengthTooLarge

/-- The delete half of `TransactionBuilder`: build a delete request per
key, stopping at the first validation error. -/
def buildDeletes (start_key : List Nat) : List (List Nat) → Except DynError (List WriteItem)
  | [] => .ok []
  | k :: ks =>
    match build_delete_transaction start_key k with
    | .error e => .error e
    | .ok item =>
      match buildDeletes start_key ks with
      | .error e => .error e
      | .ok rest => .ok (item :: rest)

/-- The put half of `TransactionBuilder`: build a put request per
key-value pair, stopping at the first validation error. -/
def buildPuts (start_key : List Nat) :
    List (List Nat × List Nat) → Except DynError (List WriteItem)
  | [] => .ok []
  | kv :: kvs =>
    match build_put_transaction start_key kv.1 kv.2 with
    | .error e => .error e
    | .ok item =>
      match buildPuts start_key kvs with
      | .error e => .error e
      | .ok rest => .ok (item :: rest)

/-- `SimpleUnorderedBatch`: deletions plus insertions. -/
structure SimpleUnorderedBatch where
  deletions : List (List Nat)
  insertions : List (List Nat × List Nat)
deriving DecidableEq

/-- The transaction list `write_batch` builds for a batch: delete
requests first, then put requests, as in the source's two loops. -/
def buildTransactions (start_key : List Nat) (batch : SimpleUnorderedBatch) :
    Except DynError (List WriteItem) :=
  match buildDeletes start_key batch.deletions with
  | .error e => .error e
  | .ok ds =>
    match buildPuts start_key batch.insertions with
    | .error e => .error e
    | .ok ps => .ok (ds ++ ps)

/-- The DynamoDB table: an association list from (partition, key) to
value. -/
abbrev Table : Type := List ((List Nat × List Nat) × List Nat)

/-- Effect of one `TransactWriteItem` on the table: `Put` overwrites the
item at its (partition, key), `Delete` removes it. -/
def applyItem (t : Table) : WriteItem → Table
  | .put p k v => ((p, k), v) :: t.filter fun e => decide (e.1 ≠ (p, k))
  | .delete p k => t.filter fun e => decide (e.1 ≠ (p, k))

/-- Effect of a whole transaction on the table. -/
def applyItems (t : Table) (items : List WriteItem) : Table :=
  items.foldl applyItem t

/-- A `DynamoDbStoreInternal` opened on a root key: its `start_key` and
its `root_key_written` flag (dynamo_db.rs, lines 293-300). -/
structure Store where
  start_key : List Nat
  root_key_written : Bool
deriving DecidableEq

/-- `KeyValueDatabase::open_shared` (dynamo_db.rs, lines 365-369):
`start_key` is `EMPTY_ROOT_KEY` followed by the root key, and the
`root_key_written` flag starts out false. -/
def open_shared (rootKey : List Nat) : Store :=
  ⟨0 :: rootKey, false⟩

/-- Outcome of a `write_batch` call: the `transact_write_items` requests
issued (in order), the resulting table, the resulting
`root_key_written` flag, and the error if the call failed. -/
structure WBResult where
  requests : List (List WriteItem)
  table : Table
  root_key_written : Bool
  error : Option DynError
deriving DecidableEq

/-- `DirectWritableKeyValueStore::write_batch` (dynamo_db.rs,
lines 813-841).  On the first call (`root_key_written` false, set by
`fetch_or(true)`) a registration record for the root key is written
under `PARTITION_KEY_ROOT_KEY` in its own transaction, before the batch;
then the batch's transactions are built (deletions, then insertions; any
validation error aborts here) and issued as one transaction if
non-empty. -/
def write_batch (store : Store) (table : Table) (batch : SimpleUnorderedBatch) :
    WBResult :=
  let regStep : List (List WriteItem) × Table × Option DynError :=
    if store.root_key_written then ([], table, none)
    else
      match build_put_transaction PARTITION_KEY_ROOT_KEY store.start_key [] with
      | .error e => ([], table, some e)
      | .ok item => ([[item]], applyItem table item, none)
  match regStep with
  | (reqs, table1, some e) => ⟨reqs, table1, true, some e⟩
  | (reqs, table1, none) =>
    match buildTransactions store.start_key batch with
    | .error e => ⟨reqs, table1, true, some e⟩
    | .ok items =>
      if items.isEmpty then ⟨reqs, table1, true, none⟩
      else ⟨reqs ++ [items], applyItems table1 items, true, none⟩

/-- `ReadableKeyValueStore::read_value_bytes` (dynamo_db.rs,
lines 729-736): validate the key, then fetch the item's value. -/
def read_value_bytes (start_key : List Nat) (table : Table) (key : List Nat) :
    Except DynError (Option (List Nat)) :=
  match check_key_size key with
  | .error e => .error e
  | .ok _ =>
    .ok ((table.find? fun e => decide (e.1 = (start_key, key))).map (·.2))

/-- `ReadableKeyValueStore::contains_key` (dynamo_db.rs, lines 738-742). -/
def contains_key (start_key : List Nat) (table : Table) (key : List Nat) :
    Except DynError Bool :=
  match check_key_size key with
  | .error e => .error e
  | .ok _ =>
    .ok (table.any fun e => decide (e.1 = (start_key, key)))

/-- `ReadableKeyValueStore::find_keys_by_prefix` (dynamo_db.rs,
lines 778-789), via `get_list_responses` (lines 664-692), which
validates the prefix with `check_key_size`; matching keys are returned
with the prefix stripped (`extract_key`, lines 205-216). -/
def find_keys_by_prefix' (start_key : List Nat) (table : Table) (keyPre : List Nat) :
    Except DynError (List (List Nat)) :=
  match check_key_size keyPre with
  | .error e => .error e
  | .ok _ =>
    .ok ((table.filter fun e =>
        decide (e.1.1 = start_key) && decide (keyPre <+: e.1.2)).map
      fun e => e.1.2.drop keyPre.length)

/-- `ReadableKeyValueStore::find_key_values_by_prefix` (dynamo_db.rs,
lines 791-802). -/
def find_key_values_by_prefix' (start_key : List Nat) (table : Table)
    (keyPre : List Nat) : Except DynError (List (List Nat × List Nat)) :=
  match check_key_size keyPre with
  | .error e => .error e
  | .ok _ =>
    .ok ((table.filter fun e =>
        decide (e.1.1 = start_key) && decide (keyPre <+: e.1.2)).map
      fun e => (e.1.2.drop keyPre.length, e.2))

/-- `KeyValueDatabase::list_root_keys` (dynamo_db.rs, lines 398-405):
scan the reserved partition `PARTITION_KEY_ROOT_KEY` for keys starting
with `EMPTY_ROOT_KEY` and return them with that byte stripped. -/
def list_root_keys (table : Table) : Except DynError (List (List Nat)) :=
  find_keys_by_prefix' PARTITION_KEY_ROOT_KEY table EMPTY_ROOT_KEY

/-- The root keys `list_root_keys` reports (it cannot fail: its prefix
`EMPTY_ROOT_KEY` always passes `check_key_size`). -/
def rootKeysOk (table : Table) : List (List Nat) :=
  (list_root_keys table).toOption.getD []

/-! ## Supporting lemmas about the adapter -/

theorem check_key_size_err (key : List Nat)
    (h : key.isEmpty = true ∨ MAX_KEY_SIZE < key.length) :
    check_key_size key = .error (keySizeErr key) := by
  unfold check_key_size keySizeErr
  rcases h with h | h
  · simp [h]
  · have hne : key.isEmpty = false := by
      cases key with
      | nil => simp [MAX_KEY_SIZE] at h
      | cons x xs => rfl
    simp [hne, h]

theorem check_key_size_ok (key : List Nat) (h1 : key ≠ [])
    (h2 : key.length ≤ MAX_KEY_SIZE) : check_key_size key = .ok () := by
  cases key with
  | nil => exact absurd rfl h1
  | cons x xs =>
    unfold check_key_size
    rw [if_neg (by simp), if_neg (Nat.not_lt.mpr h2)]

/-! ## Claim theorems for the adapter's size validation -/

/-- Claim C4: every read and write operation rejects an empty key with
`ZeroLengthKey` and a key longer than `MAX_KEY_SIZE` = 1024 bytes with
`KeyTooLong`, regardless of the value and before any request is issued;
the same bounds are enforced on the prefixes of the two prefix-scan
operations. -/
theorem claim_C4_key_size_validation (sk : List Nat) (table : Table) (key v : List Nat)
    (h : key.isEmpty = true ∨ MAX_KEY_SIZE < key.length) :
    read_value_bytes sk table key = .error (keySizeErr key)
    ∧ contains_key sk table key = .error (keySizeErr key)
    ∧ (write_batch ⟨sk, true⟩ table ⟨[], [(key, v)]⟩).error = some (keySizeErr key)
    ∧ (write_batch ⟨sk, true⟩ table ⟨[], [(key, v)]⟩).requests = []
    ∧ (write_batch ⟨sk, true⟩ table ⟨[key], []⟩).error = some (keySizeErr key)
    ∧ (write_batch ⟨sk, true⟩ table ⟨[key], []⟩).requests = []
    ∧ find_keys_by_prefix' sk table key = .error (keySizeErr key)
    ∧ find_key_values_by_prefix' sk table key = .error (keySizeErr key) := by
  have hc := check_key_size_err key h
  refine ⟨?_, ?_, ?_, ?_, ?_, ?_, ?_, ?_⟩ <;>
    simp [read_value_bytes, contains_key, write_batch, buildTransactions, buildDeletes,
      buildPuts, build_put_transaction, build_delete_transaction, find_keys_by_prefix',
      find_key_values_by_prefix', hc]

/-- Witness for C4: a 1025-byte key is rejected by both the read and the
write path, regardless of the value written. -/
theorem claim_C4_witness :
    read_value_bytes [0] [] (List.replicate 1025 0)
      = .error (keySizeErr (List.replicate 1025 0))
    ∧ (write_batch ⟨[0], true⟩ [] ⟨[], [(List.replicate 1025 0, [7])]⟩).error
      = some (keySizeErr (List.replicate 1025 0)) := by
  have h := claim_C4_key_size_validation [0] [] (List.replicate 1025 0) [7]
    (Or.inr (by norm_num [MAX_KEY_SIZE]))
  exact ⟨h.1, h.2.2.1⟩

/-- Claim C10: the adapter's declared `MAX_VALUE_SIZE`
(`VISIBLE_MAX_VALUE_SIZE`) evaluates to exactly 408569 bytes, while
`build_put_transaction` accepts any value of length up to
`RAW_MAX_VALUE_SIZE` = 409600 bytes and rejects strictly longer values
with `ValueLengthTooLarge`. -/
theorem claim_C10_value_size_constants (sk key v : List Nat)
    (hk : check_key_size key = .ok ()) :
    VISIBLE_MAX_VALUE_SIZE = 408569
    ∧ MAX_VALUE_SIZE_declared = 408569
    ∧ RAW_MAX_VALUE_SIZE = 409600
    ∧ build_put_transaction sk key v
      = (if v.length ≤ RAW_MAX_VALUE_SIZE then .ok (.put sk key v)
         else .error .ValueLengthTooLarge) := by
  refine ⟨by decide, by decide, rfl, ?_⟩
  simp [build_put_transaction, hk]

/-- Witness for C10 at a concrete valid key and value. -/
theorem claim_C10_witness :
    VISIBLE_MAX_VALUE_SIZE = 408569
    ∧ build_put_transaction [1] [3] []
      = (if ([] : List Nat).length ≤ RAW_MAX_VALUE_SIZE then .ok (.put [1] [3] [])
         else .error .ValueLengthTooLarge) := by
  have h := claim_C10_value_size_constants [1] [3] [] (by rfl)
  exact ⟨h.1, h.2.2.2⟩

/-! ## Claim C5: validation versus backend I/O in `write_batch` -/

/-- A 1025-byte key, one byte over `MAX_KEY_SIZE`. -/
def oversizedKey : List Nat := List.replicate 1025 0

theorem check_key_size_oversized :
    check_key_size oversizedKey = .error .KeyTooLong := by
  have h := check_key_size_err oversizedKey
    (Or.inr (by norm_num [oversizedKey, MAX_KEY_SIZE]))
  have hk : keySizeErr oversizedKey = .KeyTooLong := by
    simp [keySizeErr, oversizedKey, List.isEmpty_iff]
  rw [h, hk]

/-- Counterexample for C5: on the first write to a freshly opened root
key, a batch containing an oversize key still causes one backend request
— the root-key registration — before validation of the batch fails, so
"no backend request at all is issued" does not hold. -/
theorem claim_C5_counterexample :
    (write_batch (open_shared []) [] ⟨[], [(oversizedKey, [])]⟩).requests ≠ []
    ∧ (write_batch (open_shared []) [] ⟨[], [(oversizedKey, [])]⟩).requests
      = [[WriteItem.put PARTITION_KEY_ROOT_KEY [0] []]]
    ∧ (write_batch (open_shared []) [] ⟨[], [(oversizedKey, [])]⟩).error
      = some .KeyTooLong := by
  have hok : check_key_size [0] = .ok () := by rfl
  have hw : write_batch (open_shared []) [] ⟨[], [(oversizedKey, [])]⟩
      = ⟨[[WriteItem.put PARTITION_KEY_ROOT_KEY [0] []]],
         applyItem [] (WriteItem.put PARTITION_KEY_ROOT_KEY [0] []), true,
         some .KeyTooLong⟩ := by
    simp [write_batch, open_shared, build_put_transaction, hok, buildTransactions,
      buildDeletes, buildPuts, check_key_size_oversized, RAW_MAX_VALUE_SIZE]
  rw [hw]
  exact ⟨by simp, rfl, rfl⟩

/-- Claim C5 (amended): oversize keys and values in a batch are rejected
before the batch's own transaction is issued — the only request such a
call can issue is the root-key registration on a first write.  When the
root key was already registered, no request at all is issued and the
call fails with the validation error. -/
theorem claim_C5_amended_no_batch_io_on_validation_error
    (store : Store) (table : Table) (batch : SimpleUnorderedBatch) (e : DynError)
    (hb : buildTransactions store.start_key batch = .error e) :
    (write_batch store table batch).requests
      = (if store.root_key_written then []
         else
           match build_put_transaction PARTITION_KEY_ROOT_KEY store.start_key [] with
           | .ok item => [[item]]
           | .error _ => [])
    ∧ (write_batch store table batch).error.isSome = true
    ∧ (store.root_key_written = true →
        write_batch store table batch = ⟨[], table, true, some e⟩) := by
  by_cases hw : store.root_key_written
  · simp [write_batch, hw, hb]
  · cases hreg : build_put_transaction PARTITION_KEY_ROOT_KEY store.start_key [] with
    | error e' => simp [write_batch, hw, hreg, hb]
    | ok item => simp [write_batch, hw, hreg, hb]

/-- Witness for C5 (amended) on an already-registered root key with an
oversize key in the batch. -/
theorem claim_C5_witness :
    (write_batch ⟨[0], true⟩ [] ⟨[], [(oversizedKey, [])]⟩).requests = []
    ∧ (write_batch ⟨[0], true⟩ [] ⟨[], [(oversizedKey, [])]⟩).error.isSome = true
    ∧ write_batch ⟨[0], true⟩ [] ⟨[], [(oversizedKey, [])]⟩
      = ⟨[], [], true, some .KeyTooLong⟩ := by
  have hb : buildTransactions [0] ⟨[], [(oversizedKey, [])]⟩ = .error .KeyTooLong := by
    simp [buildTransactions, buildDeletes, buildPuts, build_put_transaction,
      check_key_size_oversized]
  have h := claim_C5_amended_no_batch_io_on_validation_error
    ⟨[0], true⟩ [] ⟨[], [(oversizedKey, [])]⟩ .KeyTooLong hb
  exact ⟨by simpa using h.1, h.2.1, h.2.2 rfl⟩

/-! ## Claim C6: root-key registration and `list_root_keys` -/

theorem build_delete_ok (sk k : List Nat) (item : WriteItem)
    (h : build_delete_transaction sk k = .ok item) : item = .delete sk k := by
  unfold build_delete_transaction at h
  cases hc : check_key_size k <;> rw [hc] at h
  · simp at h
  · simpa using h.symm

theorem build_put_ok (sk k v : List Nat) (item : WriteItem)
    (h : build_put_transaction sk k v = .ok item) : item = .put sk k v := by
  unfold build_put_transaction at h
  cases hc : check_key_size k <;> rw [hc] at h
  · simp at h
  · by_cases hv : v.length ≤ RAW_MAX_VALUE_SIZE
    · rw [if_pos hv] at h
      simpa using h.symm
    · rw [if_neg hv] at h
      simp at h

theorem buildDeletes_partitions (sk : List Nat) (ks : List (List Nat)) :
    ∀ items, buildDeletes sk ks = .ok items →
      ∀ item ∈ items, item.partitionOf = sk := by
  induction ks with
  | nil =>
    intro items h item hitem
    simp only [buildDeletes] at h
    injection h with h
    subst h
    simp at hitem
  | cons k ks ih =>
    intro items h item hitem
    simp only [buildDeletes] at h
    cases hd : build_delete_transaction sk k <;> rw [hd] at h
    · simp at h
    · cases hrest : buildDeletes sk ks <;> rw [hrest] at h
      · simp at h
      · injection h with h
        subst h
        rcases List.mem_cons.mp hitem with h1 | h2
        · subst h1
          rw [build_delete_ok sk k _ hd]
          rfl
        · exact ih _ hrest item h2

theorem buildPuts_partitions (sk : List Nat) (kvs : List (List Nat × List Nat)) :
    ∀ items, buildPuts sk kvs = .ok items →
      ∀ item ∈ items, item.partitionOf = sk := by
  induction kvs with
  | nil =>
    intro items h item hitem
    simp only [buildPuts] at h
    injection h with h
    subst h
    simp at hitem
  | cons kv kvs ih =>
    intro items h item hitem
    simp only [buildPuts] at h
    cases hd : build_put_transaction sk kv.1 kv.2 <;> rw [hd] at h
    · simp at h
    · cases hrest : buildPuts sk kvs <;> rw [hrest] at h
      · simp at h
      · injection h with h
        subst h
        rcases List.mem_cons.mp hitem with h1 | h2
        · subst h1
          rw [build_put_ok sk kv.1 kv.2 _ hd]
          rfl
        · exact ih _ hrest item h2

theorem buildTransactions_partitions (sk : List Nat) (batch : SimpleUnorderedBatch)
    (items : List WriteItem) (h : buildTransactions sk batch = .ok items) :
    ∀ item ∈ items, item.partitionOf = sk := by
  unfold buildTransactions at h
  cases hd : buildDeletes sk batch.deletions <;> rw [hd] at h
  · simp at h
  · cases hp : buildPuts sk batch.insertions <;> rw [hp] at h
    · simp at h
    · injection h with h
      subst h
      intro item hitem
      rcases List.mem_append.mp hitem with h1 | h2
      · exact buildDeletes_partitions sk batch.deletions _ hd item h1
      · exact buildPuts_partitions sk batch.insertions _ hp item h2

theorem mem_rootKeysOk (t : Table) (r : List Nat) :
    r ∈ rootKeysOk t
      ↔ ∃ e, e ∈ t ∧ e.1.1 = PARTITION_KEY_ROOT_KEY
          ∧ EMPTY_ROOT_KEY <+: e.1.2 ∧ e.1.2.drop 1 = r := by
  have h : rootKeysOk t
      = (t.filter fun e =>
          decide (e.1.1 = PARTITION_KEY_ROOT_KEY)
            && decide (EMPTY_ROOT_KEY <+: e.1.2)).map
        fun e => e.1.2.drop 1 := rfl
  rw [h, List.mem_map]
  constructor
  · rintro ⟨e, hef, hfe⟩
    have hm := List.mem_filter.mp hef
    have hp := hm.2
    simp only [Bool.and_eq_true, decide_eq_true_eq] at hp
    exact ⟨e, hm.1, hp.1, hp.2, hfe⟩
  · rintro ⟨e, he, h1, h2, h3⟩
    exact ⟨e, List.mem_filter.mpr ⟨he, by simp [h1, h2]⟩, h3⟩

theorem mem_rootKeys_applyItem_ne (t : Table) (item : WriteItem) (r : List Nat)
    (h : item.partitionOf ≠ PARTITION_KEY_ROOT_KEY) :
    (r ∈ rootKeysOk (applyItem t item) ↔ r ∈ rootKeysOk t) := by
  rw [mem_rootKeysOk, mem_rootKeysOk]
  cases item with
  | put p k v =>
    simp only [WriteItem.partitionOf] at h
    simp only [applyItem]
    constructor
    · rintro ⟨e, he, hroot, hpre, hdrop⟩
      rcases List.mem_cons.mp he with h1 | h2
      · rw [h1] at hroot
        exact absurd hroot h
      · exact ⟨e, (List.mem_filter.mp h2).1, hroot, hpre, hdrop⟩
    · rintro ⟨e, he, hroot, hpre, hdrop⟩
      refine ⟨e, List.mem_cons_of_mem _ (List.mem_filter.mpr ⟨he, ?_⟩), hroot, hpre, hdrop⟩
      rw [decide_eq_true_eq]
      intro heq
      exact h (by rw [← hroot, heq])
  | delete p k =>
    simp only [WriteItem.partitionOf] at h
    simp only [applyItem]
    constructor
    · rintro ⟨e, he, hroot, hpre, hdrop⟩
      exact ⟨e, (List.mem_filter.mp he).1, hroot, hpre, hdrop⟩
    · rintro ⟨e, he, hroot, hpre, hdrop⟩
      refine ⟨e, List.mem_filter.mpr ⟨he, ?_⟩, hroot, hpre, hdrop⟩
      rw [decide_eq_true_eq]
      intro heq
      exact h (by rw [← hroot, heq])

theorem mem_rootKeys_applyItems_ne (items : List WriteItem) :
    ∀ (t : Table) (r : List Nat),
      (∀ item ∈ items, item.partitionOf ≠ PARTITION_KEY_ROOT_KEY) →
      (r ∈ rootKeysOk (applyItems t items) ↔ r ∈ rootKeysOk t) := by
  induction items with
  | nil =>
    intro t r _
    exact Iff.rfl
  | cons item items ih =>
    intro t r h
    have hstep : applyItems t (item :: items) = applyItems (applyItem t item) items := rfl
    rw [hstep, ih (applyItem t item) r (fun i hi => h i (List.mem_cons_of_mem _ hi)),
      mem_rootKeys_applyItem_ne t item r (h item (List.mem_cons_self _ _))]

theorem mem_rootKeys_reg_self (t : Table) (rk : List Nat) :
    rk ∈ rootKeysOk (applyItem t (.put PARTITION_KEY_ROOT_KEY (0 :: rk) [])) := by
  rw [mem_rootKeysOk]
  refine ⟨((PARTITION_KEY_ROOT_KEY, 0 :: rk), []), ?_, rfl, ?_, rfl⟩
  · simp [applyItem]
  · simp [EMPTY_ROOT_KEY, List.cons_prefix_cons]

theorem mem_rootKeys_reg_frame (t : Table) (rk r : List Nat)
    (hr : r ∈ rootKeysOk t) :
    r ∈ rootKeysOk (applyItem t (.put PARTITION_KEY_ROOT_KEY (0 :: rk) [])) := by
  rw [mem_rootKeysOk] at hr
  obtain ⟨e, he, hroot, hpre, hdrop⟩ := hr
  by_cases hek : e.1 = (PARTITION_KEY_ROOT_KEY, 0 :: rk)
  · have h2 : e.1.2 = 0 :: rk := congrArg Prod.snd hek
    have h3 : r = rk := by
      rw [← hdrop, h2]
      rfl
    rw [h3]
    exact mem_rootKeys_reg_self t rk
  · rw [mem_rootKeysOk]
    refine ⟨e, ?_, hroot, hpre, hdrop⟩
    simp only [applyItem]
    apply List.mem_cons_of_mem
    apply List.mem_filter.mpr
    refine ⟨he, ?_⟩
    rw [decide_eq_true_eq]
    exact hek

/-- Claim C6: the first `write_batch` on a newly opened root key issues a
registration record for that root key under the reserved partition
`PARTITION_KEY_ROOT_KEY = [1]` as its first request, before the batch's
own transaction; afterwards `list_root_keys` reports that root key, and
every root key it reported before is still reported. -/
theorem claim_C6_root_key_registration (rootKey : List Nat) (table : Table)
    (batch : SimpleUnorderedBatch) (hlen : rootKey.length < MAX_KEY_SIZE) :
    (write_batch (open_shared rootKey) table batch).requests.head?
      = some [WriteItem.put PARTITION_KEY_ROOT_KEY (0 :: rootKey) []]
    ∧ rootKey ∈ rootKeysOk (write_batch (open_shared rootKey) table batch).table
    ∧ ((rootKeysOk table).all fun r =>
        decide (r ∈ rootKeysOk (write_batch (open_shared rootKey) table batch).table))
      = true := by
  have hok : check_key_size (0 :: rootKey) = .ok () := by
    apply check_key_size_ok
    · simp
    · simp only [List.length_cons]
      omega
  have hreg : build_put_transaction PARTITION_KEY_ROOT_KEY (0 :: rootKey) []
      = .ok (.put PARTITION_KEY_ROOT_KEY (0 :: rootKey) []) := by
    simp [build_put_transaction, hok, RAW_MAX_VALUE_SIZE]
  have hframe : ∀ tbl,
      rootKey ∈ rootKeysOk tbl
      → (∀ r ∈ rootKeysOk table, r ∈ rootKeysOk tbl)
      → (write_batch (open_shared rootKey) table batch).table = tbl
      → rootKey ∈ rootKeysOk (write_batch (open_shared rootKey) table batch).table
        ∧ ((rootKeysOk table).all fun r =>
            decide (r ∈ rootKeysOk (write_batch (open_shared rootKey) table batch).table))
          = true := by
    intro tbl h1 h2 heq
    rw [heq]
    refine ⟨h1, ?_⟩
    rw [List.all_eq_true]
    intro r hrm
    rw [decide_eq_true_eq]
    exact h2 r hrm
  cases hb : buildTransactions (0 :: rootKey) batch with
  | error e =>
    have hw : write_batch (open_shared rootKey) table batch
        = ⟨[[WriteItem.put PARTITION_KEY_ROOT_KEY (0 :: rootKey) []]],
           applyItem table (WriteItem.put PARTITION_KEY_ROOT_KEY (0 :: rootKey) []),
           true, some e⟩ := by
      simp [write_batch, open_shared, hreg, hb]
    refine ⟨by rw [hw]; rfl, ?_⟩
    apply hframe _ (mem_rootKeys_reg_self table rootKey)
      (fun r hr => mem_rootKeys_reg_frame table rootKey r hr)
    rw [hw]
  | ok items =>
    have hparts : ∀ item ∈ items, item.partitionOf ≠ PARTITION_KEY_ROOT_KEY := by
      intro item hitem
      rw [buildTransactions_partitions (0 :: rootKey) batch items hb item hitem]
      simp [PARTITION_KEY_ROOT_KEY]
    by_cases hempty : items.isEmpty
    · have hw : write_batch (open_shared rootKey) table batch
          = ⟨[[WriteItem.put PARTITION_KEY_ROOT_KEY (0 :: rootKey) []]],
             applyItem table (WriteItem.put PARTITION_KEY_ROOT_KEY (0 :: rootKey) []),
             true, none⟩ := by
        simp [write_batch, open_shared, hreg, hb, hempty]
      refine ⟨by rw [hw]; rfl, ?_⟩
      apply hframe _ (mem_rootKeys_reg_self table rootKey)
        (fun r hr => mem_rootKeys_reg_frame table rootKey r hr)
      rw [hw]
    · have hw : write_batch (open_shared rootKey) table batch
          = ⟨[[WriteItem.put PARTITION_KEY_ROOT_KEY (0 :: rootKey) []]] ++ [items],
             applyItems
               (applyItem table (WriteItem.put PARTITION_KEY_ROOT_KEY (0 :: rootKey) []))
               items,
             true, none⟩ := by
        simp [write_batch, open_shared, hreg, hb, hempty]
      refine ⟨by rw [hw]; rfl, ?_⟩
      apply hframe _ ?_ ?_
      · rw [hw]
      · rw [mem_rootKeys_applyItems_ne items _ rootKey hparts]
        exact mem_rootKeys_reg_self table rootKey
      · intro r hr
        rw [mem_rootKeys_applyItems_ne items _ r hparts]
        exact mem_rootKeys_reg_frame table rootKey r hr

/-- Witness for C6 with a concrete root key, table and batch. -/
theorem claim_C6_witness :
    (write_batch (open_shared [5]) [] ⟨[], [([2], [3])]⟩).requests.head?
      = some [WriteItem.put PARTITION_KEY_ROOT_KEY [0, 5] []]
    ∧ [5] ∈ rootKeysOk (write_batch (open_shared [5]) [] ⟨[], [([2], [3])]⟩).table
    ∧ ((rootKeysOk ([] : Table)).all fun r =>
        decide (r ∈ rootKeysOk (write_batch (open_shared [5]) [] ⟨[], [([2], [3])]⟩).table))
      = true := by
  have h := claim_C6_root_key_registration [5] [] ⟨[], [([2], [3])]⟩
    (by norm_num [MAX_KEY_SIZE])
  exact h

/-! ## Claim C9: namespace validation -/

/-- `InvalidNamespace` (dynamo_db.rs, lines 845-858). -/
inductive InvalidNamespace where
  | TooShort
  | TooLong
  | InvalidCharacter
deriving DecidableEq

/-- Rust's `char::is_ascii_alphanumeric`: '0'..='9', 'A'..='Z' or 'a'..='z'. -/
def is_ascii_alphanumeric (c : Char) : Bool :=
  (48 ≤ c.toNat && c.toNat ≤ 57) || (65 ≤ c.toNat && c.toNat ≤ 90)
    || (97 ≤ c.toNat && c.toNat ≤ 122)

/-- The character test of `check_namespace`: ASCII alphanumeric or one of
'.', '-', '_'. -/
def validNamespaceChar (c : Char) : Bool :=
  is_ascii_alphanumeric c || decide (c = '.') || decide (c = '-') || decide (c = '_')

/-- `DynamoDbDatabaseInternal::check_namespace` (dynamo_db.rs,
lines 520-536).  Rust's `namespace.len()` is the UTF-8 byte length of the
string, modelled by `String.utf8ByteSize`. -/
def check_namespace (ns : String) : Except InvalidNamespace Unit :=
  if ns.utf8ByteSize < 3 then .error .TooShort
  else if 255 < ns.utf8ByteSize then .error .TooLong
  else if !(ns.toList.all validNamespaceChar) then .error .InvalidCharacter
  else .ok ()

/-- The claim's reading of `check_namespace`, with the two length bounds
measured in characters instead of UTF-8 bytes. -/
def check_namespace_chars (ns : String) : Except InvalidNamespace Unit :=
  if ns.length < 3 then .error .TooShort
  else if 255 < ns.length then .error .TooLong
  else if !(ns.toList.all validNamespaceChar) then .error .InvalidCharacter
  else .ok ()

/-- Whether a validation result is a success. -/
def isOkResult : Except InvalidNamespace Unit → Bool
  | .ok _ => true
  | .error _ => false

/-- `KeyValueDatabase::create` (dynamo_db.rs, lines 455-498): validate
the namespace first, then issue the `create_table` request.  The trace
component lists the table names of the backend requests issued. -/
def createTrace (ns : String) : List String × Except InvalidNamespace Unit :=
  match check_namespace ns with
  | .error e => ([], .error e)
  | .ok _ => ([ns], .ok ())

/-- `KeyValueDatabase::exists` (dynamo_db.rs, lines 421-453): validate
the namespace first, then issue the probing `get_item` request. -/
def existsTrace (ns : String) : List String × Except InvalidNamespace Unit :=
  match check_namespace ns with
  | .error e => ([], .error e)
  | .ok _ => ([ns], .ok ())

/-- `KeyValueDatabase::delete` (dynamo_db.rs, lines 500-513): validate
the namespace first, then issue the `delete_table` request. -/
def deleteTrace (ns : String) : List String × Except InvalidNamespace Unit :=
  match check_namespace ns with
  | .error e => ([], .error e)
  | .ok _ => ([ns], .ok ())

/-- `KeyValueDatabase::connect` (dynamo_db.rs, lines 345-363): validate
the namespace first, then build the client; no backend request is
issued. -/
def connectTrace (ns : String) : List String × Except InvalidNamespace Unit :=
  match check_namespace ns with
  | .error e => ([], .error e)
  | .ok _ => ([], .ok ())

/-- Counterexample for C9: "éé" has 2 characters but 4 UTF-8 bytes.  By
the claim's character-count reading, validation should fail with
`TooShort`; the code measures bytes, passes both length checks, and
fails with `InvalidCharacter` instead. -/
theorem claim_C9_counterexample :
    check_namespace "éé" = .error .InvalidCharacter
    ∧ "éé".length = 2
    ∧ check_namespace_chars "éé" = .error .TooShort := by
  refine ⟨?_, ?_, ?_⟩ <;> rfl

/-- Claim C9 (amended): namespace validation — applied by `connect`,
`create`, `exists` and `delete` before any backend request — accepts a
namespace iff its UTF-8 byte length is between 3 and 255 inclusive and
every character is ASCII alphanumeric or one of '.', '-', '_'; it fails
with `TooShort` exactly when the byte length is under 3, with `TooLong`
exactly when it is over 255, and with `InvalidCharacter` exactly when
the length is in range but some character is invalid; a failing
namespace produces no backend request in any of the four operations. -/
theorem claim_C9_namespace_validation_bytes (ns : String) :
    (check_namespace ns = .ok ()
      ↔ (3 ≤ ns.utf8ByteSize ∧ ns.utf8ByteSize ≤ 255
          ∧ ns.toList.all validNamespaceChar = true))
    ∧ (check_namespace ns = .error .TooShort ↔ ns.utf8ByteSize < 3)
    ∧ (check_namespace ns = .error .TooLong
        ↔ (3 ≤ ns.utf8ByteSize ∧ 255 < ns.utf8ByteSize))
    ∧ (check_namespace ns = .error .InvalidCharacter
        ↔ (3 ≤ ns.utf8ByteSize ∧ ns.utf8ByteSize ≤ 255
            ∧ ¬ ns.toList.all validNamespaceChar = true))
    ∧ createTrace ns
      = ((if isOkResult (check_namespace ns) then [ns] else []), check_namespace ns)
    ∧ existsTrace ns
      = ((if isOkResult (check_namespace ns) then [ns] else []), check_namespace ns)
    ∧ deleteTrace ns
      = ((if isOkResult (check_namespace ns) then [ns] else []), check_namespace ns)
    ∧ connectTrace ns = ([], check_namespace ns) := by
  have hok : check_namespace ns = .ok ()
      ↔ (3 ≤ ns.utf8ByteSize ∧ ns.utf8ByteSize ≤ 255
          ∧ ns.toList.all validNamespaceChar = true) := by
    unfold check_namespace
    split_ifs with h1 h2 h3 <;> simp_all
  have hshort : check_namespace ns = .error .TooShort ↔ ns.utf8ByteSize < 3 := by
    unfold check_namespace
    split_ifs with h1 h2 h3 <;> simp_all
  have hlong : check_namespace ns = .error .TooLong
      ↔ (3 ≤ ns.utf8ByteSize ∧ 255 < ns.utf8ByteSize) := by
    unfold check_namespace
    split_ifs with h1 h2 h3 <;> simp_all
  have hchar : check_namespace ns = .error .InvalidCharacter
      ↔ (3 ≤ ns.utf8ByteSize ∧ ns.utf8ByteSize ≤ 255
          ∧ ¬ ns.toList.all validNamespaceChar = true) := by
    unfold check_namespace
    split_ifs with h1 h2 h3 <;> simp_all
  have hc : createTrace ns
      = ((if isOkResult (check_namespace ns) then [ns] else []), check_namespace ns) := by
    unfold createTrace isOkResult
    cases hx : check_namespace ns with
    | error e => simp
    | ok u => cases u; simp
  have he : existsTrace ns
      = ((if isOkResult (check_namespace ns) then [ns] else []), check_namespace ns) := by
    unfold existsTrace isOkResult
    cases hx : check_namespace ns with
    | error e => simp
    | ok u => cases u; simp
  have hd : deleteTrace ns
      = ((if isOkResult (check_namespace ns) then [ns] else []), check_namespace ns) := by
    unfold deleteTrace isOkResult
    cases hx : check_namespace ns with
    | error e => simp
    | ok u => cases u; simp
  have hconn : connectTrace ns = ([], check_namespace ns) := by
    unfold connectTrace
    cases hx : check_namespace ns with
    | error e => simp
    | ok u => cases u; simp
  exact ⟨hok, hshort, hlong, hchar, hc, he, hd, hconn⟩

end LineraSpec
